import Mathlib

/-!
Verification of the PyQEA quantum-inspired evolutionary optimizer
(`PyQEA/qea.py`, class `QuantumEvAlgorithm`).

Real-valued numpy arrays are modelled over `ℚ` (exact arithmetic).  A
candidate point of dimension `D` is a function `Fin D → ℚ`; a batch of
candidate points is a `List (Fin D → ℚ)`.  Randomness (`np.random.rand`,
`np.random.normal`) is modelled by passing the raw random draws in
explicitly: every claim below is about the deterministic processing the
code applies to those draws.  Console progress output, wall-clock
measurement and the history/persistence buffers are I/O only and are not
modelled beyond what the claims mention (the elapsed time is threaded
through as an opaque value stored verbatim in the result record).

The unbounded rejection-sampling `while` loop of
`restricted_quantum_sampling` is modelled with explicit fuel, returning
`none` when the fuel runs out; a terminating run of the Python loop
corresponds to a `some` result for sufficiently large fuel.
-/

/-- Scalar `np.round`: round half to even (banker's rounding), as the
integer result.  `⌊q⌋ % 2 = 0` decides evenness of the floor. -/
def np_round_int (q : ℚ) : ℤ :=
  if Int.fract q = 1/2 then (if ⌊q⌋ % 2 = 0 then ⌊q⌋ else ⌊q⌋ + 1) else round q

/-- Scalar `np.round`, as a rational. -/
def np_round (q : ℚ) : ℚ := (np_round_int q : ℚ)

/-- Entrywise `np.minimum(np.maximum(x, lower), upper)`. -/
def clamp_entry (lo hi x : ℚ) : ℚ := min (max x lo) hi

/-- One entry of `quantum_sampling` when the integral mask is present:
clamp into `[lo, hi]`, then round to the nearest integer iff the
dimension is flagged integral (`np.place(samples, mask, np.round(...))`). -/
def sample_entry (lo hi : ℚ) (b : Bool) (x : ℚ) : ℚ :=
  if b then np_round (clamp_entry lo hi x) else clamp_entry lo hi x

/-- Method `quantum_sampling(Q, n_samples)`: the raw normal draws are the rows of
`draws`; the method clamps every value into `[lower, upper]` and, when any
dimension is flagged integral, rounds the flagged (clamped) columns. -/
def quantum_sampling {D : ℕ} (lower upper : Fin D → ℚ) (integral_id : Fin D → Bool)
    (draws : List (Fin D → ℚ)) : List (Fin D → ℚ) :=
  if ∃ j, integral_id j = true then
    draws.map (fun row j => sample_entry (lower j) (upper j) (integral_id j) (row j))
  else
    draws.map (fun row j => clamp_entry (lower j) (upper j) (row j))

/-- The accumulated row mask of the first filtering pass of
`restricted_quantum_sampling`: the Python line `valid = valid * h(samples) >= 0`
multiplies the boolean mask into the constraint values *before* comparing
with `0`, so a row's entry becomes `(if valid then h-value else 0) >= 0`. -/
def valid_mask_ge {D : ℕ} (restrictions : List (List (Fin D → ℚ) → List ℚ))
    (samples : List (Fin D → ℚ)) : List Bool :=
  restrictions.foldl
    (fun valid h =>
      List.zipWith (fun v x => decide ((0:ℚ) ≤ if v then x else 0)) valid (h samples))
    (List.replicate samples.length true)

/-- The row mask of the refill loop: `valid_s = valid_s * h(new_samples) > 0`
(strict comparison in the source). -/
def valid_mask_gt {D : ℕ} (restrictions : List (List (Fin D → ℚ) → List ℚ))
    (samples : List (Fin D → ℚ)) : List Bool :=
  restrictions.foldl
    (fun valid h =>
      List.zipWith (fun v x => decide ((0:ℚ) < if v then x else 0)) valid (h samples))
    (List.replicate samples.length true)

/-- Row selection `samples[valid, :]`: keep the rows whose mask entry is `True`. -/
def maskSelect {D : ℕ} (mask : List Bool) (xs : List (Fin D → ℚ)) : List (Fin D → ℚ) :=
  ((mask.zip xs).filter (fun p => p.1)).map Prod.snd

/-- The `while (n_samples - samples.shape[0] > 0)` refill loop of
`restricted_quantum_sampling`, with fuel.  `draws k` supplies the raw
normal draws of the `k`-th sampling call of the method. -/
def restricted_go {D : ℕ} (restrictions : List (List (Fin D → ℚ) → List ℚ))
    (lower upper : Fin D → ℚ) (integral_id : Fin D → Bool)
    (draws : ℕ → List (Fin D → ℚ)) (n_samples : ℕ) :
    ℕ → ℕ → List (Fin D → ℚ) → Option (List (Fin D → ℚ))
  | 0, _, acc => if n_samples ≤ acc.length then some acc else none
  | fuel+1, k, acc =>
    if n_samples ≤ acc.length then some acc
    else
      let new_samples :=
        quantum_sampling lower upper integral_id ((draws k).take (n_samples - acc.length))
      restricted_go restrictions lower upper integral_id draws n_samples fuel (k+1)
        (acc ++ maskSelect (valid_mask_gt restrictions new_samples) new_samples)

/-- Method `restricted_quantum_sampling(Q, n_samples)`: sample, filter with the
accumulated `>= 0` mask, then refill with the `> 0` mask until `n_samples`
rows are held. -/
def restricted_quantum_sampling {D : ℕ} (restrictions : List (List (Fin D → ℚ) → List ℚ))
    (lower upper : Fin D → ℚ) (integral_id : Fin D → Bool)
    (draws : ℕ → List (Fin D → ℚ)) (n_samples fuel : ℕ) : Option (List (Fin D → ℚ)) :=
  let samples := quantum_sampling lower upper integral_id ((draws 0).take n_samples)
  restricted_go restrictions lower upper integral_id draws n_samples fuel 1
    (maskSelect (valid_mask_ge restrictions samples) samples)

/-- The constructor arguments of `QuantumEvAlgorithm.__init__` that the
iteration body reads (`saving_interval` only steers the history snapshots,
which are not modelled). -/
structure QEAParams (D : ℕ) where
  cost_function : List (Fin D → ℚ) → List ℚ
  sigma_scaler : ℚ
  mu_scaler : ℚ
  elitist_level : ℕ
  ros_flag : Bool
  saving_interval : ℕ
  upper : Fin D → ℚ
  lower : Fin D → ℚ
  integral_id : Fin D → Bool
  restrictions : List (List (Fin D → ℚ) → List ℚ)

/-- The scalar cost of a single candidate point: the cost function is
called on the 1×D batch holding just that point and the single output is
read off. -/
def cost_at {D : ℕ} (f : List (Fin D → ℚ) → List ℚ) (x : Fin D → ℚ) : ℚ :=
  (f [x]).headD 0

/-- Insert a (row, cost) pair into a cost-sorted list, keeping ascending
order. -/
def insertByKey {D : ℕ} (x : (Fin D → ℚ) × ℚ) :
    List ((Fin D → ℚ) × ℚ) → List ((Fin D → ℚ) × ℚ)
  | [] => [x]
  | y :: ys => if x.2 < y.2 then x :: y :: ys else y :: insertByKey x ys

/-- Sort (row, cost) pairs by ascending cost (`np.argsort(cost)` followed
by indexing; ties keep an unspecified order, here the stable one). -/
def sortByKey {D : ℕ} : List ((Fin D → ℚ) × ℚ) → List ((Fin D → ℚ) × ℚ)
  | [] => []
  | x :: xs => insertByKey x (sortByKey xs)

/-- Method `elitist_sample_evaluation(samples)`: evaluate the cost function on
the batch, sort rows by ascending cost, and return the per-dimension mean
of the best `elitist_level` rows. -/
def elitist_sample_evaluation {D : ℕ} (f : List (Fin D → ℚ) → List ℚ)
    (elitist_level : ℕ) (samples : List (Fin D → ℚ)) : Fin D → ℚ :=
  let cost := f samples
  let best := ((sortByKey (samples.zip cost)).map Prod.fst).take elitist_level
  fun j => (best.map (fun v => v j)).sum / best.length

/-- Ratio `sigma_decider = np.abs(mu_delta) / sigma`, per dimension. -/
def sigma_decider {D : ℕ} (mu sigma elite : Fin D → ℚ) : Fin D → ℚ :=
  fun j => |elite j - mu j| / sigma j

/-- One entry of the sigma update
`(sigma_decider < 1) * sigma / sigma_scaler + (sigma_decider > 1) * sigma * sigma_scaler`
(booleans act as `0`/`1` factors). -/
def updated_sigma_entry (sigma_scaler σ d : ℚ) : ℚ :=
  (if d < 1 then 1 else 0) * σ / sigma_scaler + (if 1 < d then 1 else 0) * σ * sigma_scaler

/-- Method `quantum_update(Q, best_performing_sample)`: move the mean a
`1/mu_scaler` fraction toward the elite target and the best-of-best
anchor, rescale sigma by the decider rule, and (when `ros_flag` is set
and the candidate mean's cost exceeds `10`) multiply collapsed shrinking
sigmas back up once.  `bob` is the `self.best_of_best` field at call
time. -/
def quantum_update {D : ℕ} (p : QEAParams D) (bob mu sigma elite : Fin D → ℚ) :
    (Fin D → ℚ) × (Fin D → ℚ) :=
  let updated_mu : Fin D → ℚ :=
    fun j => mu j + ((elite j - mu j) + (bob j - mu j)) / p.mu_scaler
  let dec := sigma_decider mu sigma elite
  let updated_sigma : Fin D → ℚ := fun j => updated_sigma_entry p.sigma_scaler (sigma j) (dec j)
  let corrected_sigma : Fin D → ℚ :=
    if 10 < cost_at p.cost_function updated_mu ∧ p.ros_flag then
      fun j => if updated_sigma j < 1/1000 ∧ dec j < 1 then updated_sigma j * p.sigma_scaler
               else updated_sigma j
    else updated_sigma
  (updated_mu, corrected_sigma)

/-- The state the `training` loop threads through its iterations: the
quantum individual `Q` (mean row and sigma row), the `best_of_best`
field, the (mutable) `elitist_level` field, and the `best_performer` of
the most recent iteration. -/
structure TrainState (D : ℕ) where
  mu : Fin D → ℚ
  sigma : Fin D → ℚ
  best_of_best : Fin D → ℚ
  elitist_level : ℕ
  lastElite : Fin D → ℚ

/-- The `results` dictionary assembled at the end of `training`. -/
structure ResultRecord (D : ℕ) where
  time : ℚ
  cost : ℚ
  min : Fin D → ℚ

/-- The guard of the early-`break` statement at the bottom of the loop:
`self.cost_function(best_performer) <= 0.0001 and False`. -/
def break_condition (c : ℚ) : Bool := decide (c ≤ 1/10000) && false

/-- Method `quantum_individual_init()`: `Q = lower + upper * rand(2, D)` followed
by `Q[1,:] = upper - lower`; `u` is the first row of the uniform draws
(each entry in `[0, 1)`).  Returns (mean row, sigma row); the method also
sets `best_of_best` to the mean row, which `training_full` mirrors. -/
def quantum_individual_init {D : ℕ} (lower upper u : Fin D → ℚ) :
    (Fin D → ℚ) × (Fin D → ℚ) :=
  (fun j => lower j + upper j * u j, fun j => upper j - lower j)

/-- The body of iteration `i` of `training` after the batch has been
sampled: the final-iteration `elitist_level = 1` forcing, elite
selection, the `best_of_best` replacement test, and `quantum_update`. -/
def training_step {D : ℕ} (p : QEAParams D) (N_iterations i : ℕ)
    (samples : List (Fin D → ℚ)) (s : TrainState D) : TrainState D :=
  let el := if (N_iterations : ℤ) - 1 < (i : ℤ) then 1 else s.elitist_level
  let best_performer := elitist_sample_evaluation p.cost_function el samples
  let bob := if cost_at p.cost_function best_performer < cost_at p.cost_function s.best_of_best
             then best_performer else s.best_of_best
  let q := quantum_update p bob s.mu s.sigma best_performer
  ⟨q.1, q.2, bob, el, best_performer⟩

/-- Step 1 of the iteration body: `restricted_quantum_sampling` when the
restriction list is non-empty, plain `quantum_sampling` otherwise.
`draws k` supplies the raw normal draws of the `k`-th sampling call made
during this iteration. -/
def iteration_samples {D : ℕ} (p : QEAParams D) (draws : ℕ → List (Fin D → ℚ))
    (sample_size rfuel : ℕ) : Option (List (Fin D → ℚ)) :=
  if p.restrictions.isEmpty then
    some (quantum_sampling p.lower p.upper p.integral_id ((draws 0).take sample_size))
  else
    restricted_quantum_sampling p.restrictions p.lower p.upper p.integral_id draws
      sample_size rfuel

/-- The `for i in range(N_iterations+1)` loop of `training`, recorded
together with the list of iteration indices whose bodies ran.  The fuel
is `N_iterations + 1` at the top-level call; `none` only arises when a
constrained sampling call exhausts its fuel (the Python loop would spin
forever there). -/
def training_go {D : ℕ} (p : QEAParams D) (draws : ℕ → ℕ → List (Fin D → ℚ))
    (N_iterations sample_size rfuel : ℕ) :
    ℕ → ℕ → TrainState D → Option (TrainState D × List ℕ)
  | 0, _, s => some (s, [])
  | fuel+1, i, s =>
    match iteration_samples p (draws i) sample_size rfuel with
    | none => none
    | some samples =>
      let s' := training_step p N_iterations i samples s
      if break_condition (cost_at p.cost_function s'.lastElite) then some (s', [i])
      else (training_go p draws N_iterations sample_size rfuel fuel (i+1) s').map
             (fun r => (r.1, i :: r.2))

/-- The assert message of the `sample_size > elitist_level` check. -/
def sample_size_error : String := "Sample size must be greater than elitist level"

/-- Modelling artifact only: reported when a constrained sampling call
exhausts its fuel, a case in which the Python loop never terminates. -/
def feasibility_fuel_error : String := "rejection sampling fuel exhausted"

/-- Method `training(N_iterations, sample_size, ...)`: the precondition assert,
`quantum_individual_init`, the iteration loop, and the final `results`
dictionary.  Returns the result record together with the final field
state (so that the post-run values of `best_of_best` and `elitist_level`
are observable).  `u` is the uniform initialization draw, `draws i k` the
raw normal draws of the `k`-th sampling call of iteration `i`, and
`elapsed` the measured wall-clock time, stored verbatim. -/
def training_full {D : ℕ} (p : QEAParams D) (N_iterations sample_size : ℕ)
    (u : Fin D → ℚ) (draws : ℕ → ℕ → List (Fin D → ℚ)) (rfuel : ℕ) (elapsed : ℚ) :
    Except String (ResultRecord D × TrainState D) :=
  if sample_size ≤ p.elitist_level then Except.error sample_size_error
  else
    let Q := quantum_individual_init p.lower p.upper u
    let s0 : TrainState D := ⟨Q.1, Q.2, Q.1, p.elitist_level, Q.1⟩
    match training_go p draws N_iterations sample_size rfuel (N_iterations + 1) 0 s0 with
    | none => Except.error feasibility_fuel_error
    | some r =>
      Except.ok (⟨elapsed, cost_at p.cost_function r.1.lastElite, r.1.lastElite⟩, r.1)

/-- Constraint returning `-1` on every row (used to exhibit an infeasible
returned batch). -/
def c1_h1 : List (Fin 1 → ℚ) → List ℚ := fun b => b.map (fun _ => -1)

/-- Constraint returning `1` on every row. -/
def c1_h2 : List (Fin 1 → ℚ) → List ℚ := fun b => b.map (fun _ => 1)

/-- Raw normal draws for the constrained-sampling run: the value `5` in
every row. -/
def c1_draws : ℕ → List (Fin 1 → ℚ) := fun _ => [fun _ => 5]

/-- One-dimensional configuration with `sigma_scaler = 2 > 1` and the
anti-stagnation flag off. -/
def c2_params : QEAParams 1 :=
  ⟨fun b => b.map (fun _ => 0), 2, 100, 4, false, 1,
   (fun _ => 10), (fun _ => 0), (fun _ => false), []⟩

/-- One-dimensional configuration with `sigma_scaler = 2 > 1` and the
anti-stagnation flag off. -/
def c4_params : QEAParams 1 :=
  ⟨fun b => b.map (fun _ => 0), 2, 100, 4, false, 1,
   (fun _ => 10), (fun _ => 0), (fun _ => false), []⟩

/-- Integral 1-D domain `[0, 1]` for the sampling bound check. -/
def c5w_lower : Fin 1 → ℚ := fun _ => 0

/-- Integral 1-D domain `[0, 1]` for the sampling bound check. -/
def c5w_upper : Fin 1 → ℚ := fun _ => 1

/-- All-integral mask. -/
def c5w_mask : Fin 1 → Bool := fun _ => true

/-- A single raw draw far outside the domain. -/
def c5w_draws : List (Fin 1 → ℚ) := [fun _ => 5]

/-- Unconstrained 1-D configuration with constant-zero cost,
`elitist_level = 1`, both scalers `1`. -/
def c6_params : QEAParams 1 :=
  ⟨fun b => b.map (fun _ => 0), 1, 1, 1, false, 1,
   (fun _ => 1), (fun _ => 0), (fun _ => false), []⟩

/-- Two zero rows of raw normal draws for every sampling call. -/
def c6_draws : ℕ → ℕ → List (Fin 1 → ℚ) := fun _ _ => [fun _ => 0, fun _ => 0]

/-- Unconstrained 1-D configuration with constant-zero cost and
configured `elitist_level = 2`. -/
def c8_params : QEAParams 1 :=
  ⟨fun b => b.map (fun _ => 0), 1, 1, 2, false, 1,
   (fun _ => 1), (fun _ => 0), (fun _ => false), []⟩

/-- Three zero rows of raw normal draws for every sampling call. -/
def c8_draws : ℕ → ℕ → List (Fin 1 → ℚ) :=
  fun _ _ => [fun _ => 0, fun _ => 0, fun _ => 0]

/-- Configuration whose `elitist_level = 1` makes `sample_size = 1`
violate the precondition. -/
def c9_bad : QEAParams 1 :=
  ⟨fun b => b.map (fun _ => 0), 2, 100, 1, false, 1,
   (fun _ => 1), (fun _ => 0), (fun _ => false), []⟩

/-- Configuration whose `elitist_level = 0` makes `sample_size = 1`
satisfy the precondition. -/
def c9_ok : QEAParams 1 :=
  ⟨fun b => b.map (fun _ => 0), 2, 100, 0, false, 1,
   (fun _ => 1), (fun _ => 0), (fun _ => false), []⟩

lemma le_clamp_entry (lo hi x : ℚ) (h : lo ≤ hi) : lo ≤ clamp_entry lo hi x :=
  le_min (le_max_right x lo) h

lemma clamp_entry_le (lo hi x : ℚ) : clamp_entry lo hi x ≤ hi :=
  min_le_right _ _

lemma np_round_dist (q : ℚ) : q - 1/2 ≤ np_round q ∧ np_round q ≤ q + 1/2 := by
  unfold np_round np_round_int
  split_ifs with h1 h2
  · have hq : ((⌊q⌋ : ℚ)) = q - 1/2 := by
      have := Int.floor_add_fract q
      rw [h1] at this
      linarith
    rw [hq]
    constructor <;> linarith
  · have hq : ((⌊q⌋ : ℚ)) = q - 1/2 := by
      have := Int.floor_add_fract q
      rw [h1] at this
      linarith
    push_cast
    constructor <;> linarith
  · have h := abs_sub_round q
    rw [abs_le] at h
    constructor <;> linarith [h.1, h.2]

lemma updated_sigma_entry_eq (s σ d : ℚ) :
    updated_sigma_entry s σ d = if d < 1 then σ / s else if 1 < d then σ * s else 0 := by
  unfold updated_sigma_entry
  rcases lt_trichotomy d 1 with h | h | h
  · have h2 : ¬(1:ℚ) < d := by linarith
    simp [h, h2]
  · simp [h]
  · have h2 : ¬d < 1 := by linarith
    simp [h, h2]

lemma updated_sigma_entry_pos (s σ d : ℚ) (hs : 1 < s) (hσ : 0 < σ) (hd : d ≠ 1) :
    0 < updated_sigma_entry s σ d := by
  rw [updated_sigma_entry_eq]
  rcases lt_or_gt_of_ne hd with h | h
  · rw [if_pos h]
    exact div_pos hσ (lt_trans zero_lt_one hs)
  · rw [if_neg (by linarith), if_pos h]
    exact mul_pos hσ (lt_trans zero_lt_one hs)

lemma break_condition_false (c : ℚ) : break_condition c = false := by
  simp [break_condition]

lemma getD_map_lt {α β : Type} (l : List α) (g : α → β) (i : ℕ) (d : β)
    (h : i < l.length) : (l.map g).getD i d = g (l.get ⟨i, h⟩) := by
  rw [List.getD_eq_getElem?_getD, List.getElem?_map,
    List.getElem?_eq_getElem h]
  rfl

lemma training_step_bob_cases {D : ℕ} (p : QEAParams D) (N i : ℕ)
    (samples : List (Fin D → ℚ)) (s : TrainState D) :
    (training_step p N i samples s).best_of_best = s.best_of_best ∨
      cost_at p.cost_function (training_step p N i samples s).best_of_best <
        cost_at p.cost_function s.best_of_best := by
  unfold training_step
  dsimp only
  split_ifs with h1 h2 h3
  · exact Or.inr h2
  · exact Or.inl rfl
  · exact Or.inr h3
  · exact Or.inl rfl

lemma training_step_bob_le {D : ℕ} (p : QEAParams D) (N i : ℕ)
    (samples : List (Fin D → ℚ)) (s : TrainState D) :
    cost_at p.cost_function (training_step p N i samples s).best_of_best ≤
      cost_at p.cost_function s.best_of_best := by
  rcases training_step_bob_cases p N i samples s with h | h
  · rw [h]
  · exact le_of_lt h

lemma training_step_elitist_eq {D : ℕ} (p : QEAParams D) (N i : ℕ)
    (samples : List (Fin D → ℚ)) (s : TrainState D) :
    (training_step p N i samples s).elitist_level = if N ≤ i then 1 else s.elitist_level := by
  unfold training_step
  dsimp only
  split_ifs with h1 h2
  · rfl
  · omega
  · omega
  · rfl

lemma training_go_bob_le {D : ℕ} (p : QEAParams D) (draws : ℕ → ℕ → List (Fin D → ℚ))
    (N ss rf : ℕ) :
    ∀ (fuel i : ℕ) (s : TrainState D),
      cost_at p.cost_function
          (((training_go p draws N ss rf fuel i s).getD (s, [])).1.best_of_best) ≤
        cost_at p.cost_function s.best_of_best := by
  intro fuel
  induction fuel with
  | zero =>
    intro i s
    simp [training_go]
  | succ fuel ih =>
    intro i s
    rw [training_go]
    cases h : iteration_samples p (draws i) ss rf with
    | none => simp
    | some samples =>
      simp only [break_condition_false, Bool.false_eq_true, if_false]
      cases hgo : training_go p draws N ss rf fuel (i+1) (training_step p N i samples s) with
      | none => simp
      | some r =>
        simp only [Option.map_some', Option.getD_some]
        have h1 := ih (i+1) (training_step p N i samples s)
        rw [hgo] at h1
        simp only [Option.getD_some] at h1
        exact le_trans h1 (training_step_bob_le p N i samples s)

lemma training_go_indices {D : ℕ} (p : QEAParams D) (draws : ℕ → ℕ → List (Fin D → ℚ))
    (N ss rf : ℕ) :
    ∀ (fuel i : ℕ) (s : TrainState D),
      (training_go p draws N ss rf fuel i s).map Prod.snd =
        (training_go p draws N ss rf fuel i s).map (fun _ => List.range' i fuel) := by
  intro fuel
  induction fuel with
  | zero =>
    intro i s
    simp [training_go, List.range']
  | succ fuel ih =>
    intro i s
    rw [training_go]
    cases h : iteration_samples p (draws i) ss rf with
    | none => simp
    | some samples =>
      simp only [break_condition_false, Bool.false_eq_true, if_false]
      cases hgo : training_go p draws N ss rf fuel (i+1) (training_step p N i samples s) with
      | none => simp
      | some r =>
        have h1 := ih (i+1) (training_step p N i samples s)
        rw [hgo] at h1
        simp only [Option.map_some', Option.some.injEq] at h1
        simp only [Option.map_some', Option.some.injEq, List.range']
        rw [h1]

lemma training_go_final_elitist {D : ℕ} (p : QEAParams D)
    (draws : ℕ → ℕ → List (Fin D → ℚ)) (N ss rf : ℕ) :
    ∀ (fuel i : ℕ) (s : TrainState D) (r : TrainState D × List ℕ),
      training_go p draws N ss rf (fuel+1) i s = some r →
      r.1.elitist_level = if N ≤ i + fuel then 1 else s.elitist_level := by
  intro fuel
  induction fuel with
  | zero =>
    intro i s r hr
    rw [training_go] at hr
    cases h : iteration_samples p (draws i) ss rf with
    | none => rw [h] at hr; exact absurd hr (by simp)
    | some samples =>
      rw [h] at hr
      simp only [break_condition_false, Bool.false_eq_true, if_false, training_go,
        Option.map_some', Option.some.injEq] at hr
      rw [← hr]
      simpa using training_step_elitist_eq p N i samples s
  | succ fuel ih =>
    intro i s r hr
    rw [training_go] at hr
    cases h : iteration_samples p (draws i) ss rf with
    | none => rw [h] at hr; exact absurd hr (by simp)
    | some samples =>
      rw [h] at hr
      simp only [break_condition_false, Bool.false_eq_true, if_false] at hr
      rw [Option.map_eq_some'] at hr
      obtain ⟨r', hgo, hr'⟩ := hr
      have h1 := ih (i+1) (training_step p N i samples s) r' hgo
      rw [training_step_elitist_eq] at h1
      rw [← hr']
      simp only
      rw [h1]
      have harith : i + 1 + fuel = i + (fuel + 1) := by omega
      rw [harith]
      by_cases hN : N ≤ i + (fuel + 1)
      · rw [if_pos hN, if_pos hN]
      · rw [if_neg hN, if_neg (by omega), if_neg (by omega)]

/-- C1: the claim states that every row returned by
`restricted_quantum_sampling` satisfies every constraint with value `≥ 0`.
The code violates it: with the two constraints `h1 ≡ -1`, `h2 ≡ 1` and
`n_samples = 1`, the accumulated mask line `valid = valid * h(samples) >= 0`
first zeroes the row (as `h1 < 0`) and then re-validates it (`0 * h2 = 0 ≥ 0`),
so the returned batch consists of one row on which `h1` is negative. -/
theorem C1_returns_infeasible_row :
    ((restricted_quantum_sampling [c1_h1, c1_h2] (fun _ => 0) (fun _ => 10) (fun _ => false)
        c1_draws 1 5).getD []).length = 1 ∧
    (c1_h1 ((restricted_quantum_sampling [c1_h1, c1_h2] (fun _ => 0) (fun _ => 10)
        (fun _ => false) c1_draws 1 5).getD [])).getD 0 0 < 0 := by
  norm_num [restricted_quantum_sampling, restricted_go, quantum_sampling, valid_mask_ge,
    maskSelect, clamp_entry, c1_h1, c1_h2, c1_draws]

/-- C2 (counterexample): with strictly positive input sigma `1`,
`sigma_scaler = 2 > 1`, mean `0` and elite target `1`, the sigma decider
equals `1` exactly, both indicator factors vanish, and the updated sigma
is `0` — not strictly positive as the claim states. -/
theorem C2_counterexample :
    (1:ℚ) < c2_params.sigma_scaler ∧ (0:ℚ) < (fun _ : Fin 1 => (1:ℚ)) 0 ∧
    ¬ (0 < (quantum_update c2_params (fun _ => 0) (fun _ => 0) (fun _ => 1)
        (fun _ => 1)).2 0) := by
  norm_num [quantum_update, updated_sigma_entry, sigma_decider, cost_at, c2_params]

/-- C2 (amended): after one `quantum_update` with positive sigma and
`sigma_scaler > 1`, every sigma component stays strictly positive
*provided* the decider `|elite - mu| / sigma` differs from `1` in every
dimension; at a dimension where it equals `1` the updated sigma is `0`. -/
theorem C2_amended {D : ℕ} (p : QEAParams D) (bob mu sigma elite : Fin D → ℚ)
    (hs : 1 < p.sigma_scaler) (hσ : ∀ j, 0 < sigma j)
    (hne : ∀ j, sigma_decider mu sigma elite j ≠ 1) :
    ∀ j, 0 < (quantum_update p bob mu sigma elite).2 j := by
  intro j
  have key := updated_sigma_entry_pos p.sigma_scaler (sigma j)
    (sigma_decider mu sigma elite j) hs (hσ j) (hne j)
  unfold quantum_update
  dsimp only
  split_ifs with h1
  · dsimp only
    split_ifs with h2
    · exact mul_pos key (lt_trans zero_lt_one hs)
    · exact key
  · exact key

/-- C2 (witness): the amended positivity theorem applied to the
concrete configuration with mean `0`, sigma `1`, elite target `0`. -/
theorem C2_amended_witness :
    0 < (quantum_update c2_params (fun _ => 0) (fun _ => 0) (fun _ => 1) (fun _ => 0)).2 0 :=
  C2_amended c2_params (fun _ => 0) (fun _ => 0) (fun _ => 1) (fun _ => 0)
    (by norm_num [c2_params]) (fun j => by norm_num)
    (fun j => by norm_num [sigma_decider]) 0

/-- C4 (counterexample): at a dimension where the decider equals `1`
(mean `0`, sigma `1`, elite target `1`), the new sigma is `0`, not
`sigma * sigma_scaler = 2` as the claim states for the `≥ 1` case. -/
theorem C4_counterexample :
    sigma_decider (fun _ => 0) (fun _ => 1) (fun _ => 1) (0 : Fin 1) = 1 ∧
    (quantum_update c4_params (fun _ => 0) (fun _ => 0) (fun _ => 1) (fun _ => 1)).2 0 = 0 ∧
    (0:ℚ) ≠ 1 * 2 := by
  norm_num [quantum_update, updated_sigma_entry, sigma_decider, cost_at, c4_params]

/-- C4 (amended): with the anti-stagnation correction disabled, the sigma
update is three-valued per dimension: `sigma / sigma_scaler` when the
decider is `< 1`, `sigma * sigma_scaler` when it is `> 1`, and `0` when it
equals `1` (both indicator factors vanish). -/
theorem C4_amended {D : ℕ} (p : QEAParams D) (bob mu sigma elite : Fin D → ℚ) (j : Fin D) :
    (quantum_update {p with ros_flag := false} bob mu sigma elite).2 j =
      if sigma_decider mu sigma elite j < 1 then sigma j / p.sigma_scaler
      else if 1 < sigma_decider mu sigma elite j then sigma j * p.sigma_scaler
      else 0 := by
  unfold quantum_update
  dsimp only
  rw [if_neg (by simp)]
  exact updated_sigma_entry_eq p.sigma_scaler (sigma j) (sigma_decider mu sigma elite j)

/-- C3: `best_of_best` is replaced by one iteration body only when the
elite target's cost is strictly lower (otherwise it is kept unchanged),
and consequently along any completed stretch of the training loop the
cost of `best_of_best` never increases. -/
theorem C3_best_of_best_monotone {D : ℕ} (p : QEAParams D)
    (draws : ℕ → ℕ → List (Fin D → ℚ)) (N ss rf fuel i : ℕ) (s : TrainState D)
    (samples : List (Fin D → ℚ)) :
    cost_at p.cost_function
        (((training_go p draws N ss rf fuel i s).getD (s, [])).1.best_of_best) ≤
      cost_at p.cost_function s.best_of_best ∧
    ((training_step p N i samples s).best_of_best = s.best_of_best ∨
      cost_at p.cost_function (training_step p N i samples s).best_of_best <
        cost_at p.cost_function s.best_of_best) :=
  ⟨training_go_bob_le p draws N ss rf fuel i s, training_step_bob_cases p N i samples s⟩

/-- Rounding the clamped value of an integral dimension stays inside the
domain bounds whenever those bounds are themselves integers. -/
lemma np_round_clamp_int_bounds (lo hi x : ℚ) (zl zu : ℤ) (hdom : lo ≤ hi)
    (hzl : lo = (zl:ℚ)) (hzu : hi = (zu:ℚ)) :
    lo ≤ np_round (clamp_entry lo hi x) ∧ np_round (clamp_entry lo hi x) ≤ hi := by
  subst hzl
  subst hzu
  have hc1 := le_clamp_entry ((zl:ℚ)) ((zu:ℚ)) x hdom
  have hc2 := clamp_entry_le ((zl:ℚ)) ((zu:ℚ)) x
  have hd := np_round_dist (clamp_entry ((zl:ℚ)) ((zu:ℚ)) x)
  unfold np_round at hd ⊢
  constructor
  · have h1 : (zl:ℚ) - 1 < (np_round_int (clamp_entry ((zl:ℚ)) ((zu:ℚ)) x) : ℚ) := by
      linarith [hd.1]
    have h2 : zl - 1 < np_round_int (clamp_entry ((zl:ℚ)) ((zu:ℚ)) x) := by
      exact_mod_cast h1
    have h3 : zl ≤ np_round_int (clamp_entry ((zl:ℚ)) ((zu:ℚ)) x) := by omega
    exact_mod_cast h3
  · have h1 : (np_round_int (clamp_entry ((zl:ℚ)) ((zu:ℚ)) x) : ℚ) < (zu:ℚ) + 1 := by
      linarith [hd.2]
    have h2 : np_round_int (clamp_entry ((zl:ℚ)) ((zu:ℚ)) x) < zu + 1 := by
      exact_mod_cast h1
    have h3 : np_round_int (clamp_entry ((zl:ℚ)) ((zu:ℚ)) x) ≤ zu := by omega
    exact_mod_cast h3

/-- C5 (counterexample): with the valid 1-D domain `[0, 3/5]`, the
dimension flagged integral, and a raw draw `5`, the sampled value is
`np.round(clamp(5)) = np.round(3/5) = 1`, which lies outside
`[lower, upper] = [0, 3/5]` — the claim's in-bounds guarantee fails for
integral dimensions with non-integer bounds. -/
theorem C5_counterexample :
    (0:ℚ) ≤ 3/5 ∧
    ((quantum_sampling (fun _ : Fin 1 => (0:ℚ)) (fun _ => 3/5) (fun _ => true)
        [fun _ => 5]).getD 0 (fun _ => 0)) 0 = 1 ∧
    ¬ ((1:ℚ) ≤ 3/5) := by
  refine ⟨by norm_num, ?_, by norm_num⟩
  have hclamp : clamp_entry 0 (3/5) 5 = 3/5 := by
    norm_num [clamp_entry]
  have hround : np_round (3/5) = 1 := by
    norm_num [np_round, np_round_int, Int.fract, round_eq]
  simp only [quantum_sampling]
  norm_num [sample_entry, hclamp, hround]

/-- C5 (amended): every sampled batch keeps the row count of its raw
draws, every value in a non-integral dimension lies in
`[lower[j], upper[j]]`, and every value in an integral dimension is an
integer lying in `[lower[j] - 1/2, upper[j] + 1/2]` (rounding the clamped
value can overshoot the bounds by up to one half); when the bounds of an
integral dimension are themselves integers the value does lie in
`[lower[j], upper[j]]`. -/
theorem C5_amended {D : ℕ} (lower upper : Fin D → ℚ) (integral_id : Fin D → Bool)
    (draws : List (Fin D → ℚ)) (n : ℕ) (hn : draws.length = n)
    (hdom : ∀ j, lower j ≤ upper j) :
    (quantum_sampling lower upper integral_id draws).length = n ∧
    ∀ i, i < n → ∀ j : Fin D,
      (integral_id j = false →
        lower j ≤ (quantum_sampling lower upper integral_id draws).getD i (fun _ => 0) j ∧
        (quantum_sampling lower upper integral_id draws).getD i (fun _ => 0) j ≤ upper j) ∧
      (integral_id j = true →
        (∃ z : ℤ,
          (quantum_sampling lower upper integral_id draws).getD i (fun _ => 0) j = (z:ℚ)) ∧
        lower j - 1/2 ≤ (quantum_sampling lower upper integral_id draws).getD i (fun _ => 0) j ∧
        (quantum_sampling lower upper integral_id draws).getD i (fun _ => 0) j ≤
          upper j + 1/2) ∧
      (∀ zl zu : ℤ, integral_id j = true → lower j = (zl:ℚ) → upper j = (zu:ℚ) →
        lower j ≤ (quantum_sampling lower upper integral_id draws).getD i (fun _ => 0) j ∧
        (quantum_sampling lower upper integral_id draws).getD i (fun _ => 0) j ≤ upper j) := by
  constructor
  · unfold quantum_sampling
    split_ifs <;> simp [hn]
  · intro i hi j
    have hi2 : i < draws.length := by omega
    unfold quantum_sampling
    split_ifs with hex
    · rw [getD_map_lt draws _ i _ hi2]
      have hc1 := le_clamp_entry (lower j) (upper j) (draws.get ⟨i, hi2⟩ j) (hdom j)
      have hc2 := clamp_entry_le (lower j) (upper j) (draws.get ⟨i, hi2⟩ j)
      have hd := np_round_dist (clamp_entry (lower j) (upper j) (draws.get ⟨i, hi2⟩ j))
      refine ⟨?_, ?_, ?_⟩
      · intro hfalse
        simp only [sample_entry, hfalse, Bool.false_eq_true, if_false]
        exact ⟨hc1, hc2⟩
      · intro htrue
        simp only [sample_entry, htrue, if_true]
        refine ⟨⟨np_round_int _, rfl⟩, ?_, ?_⟩
        · unfold np_round at hd ⊢
          linarith [hd.1]
        · unfold np_round at hd ⊢
          linarith [hd.2]
      · intro zl zu htrue hzl hzu
        simp only [sample_entry, htrue, if_true]
        exact np_round_clamp_int_bounds (lower j) (upper j) (draws.get ⟨i, hi2⟩ j)
          zl zu (hdom j) hzl hzu
    · simp only [not_exists, Bool.not_eq_true] at hex
      rw [getD_map_lt draws _ i _ hi2]
      refine ⟨?_, ?_, ?_⟩
      · intro _
        exact ⟨le_clamp_entry _ _ _ (hdom j), clamp_entry_le _ _ _⟩
      · intro htrue
        exact absurd htrue (by simp [hex j])
      · intro zl zu htrue _ _
        exact absurd htrue (by simp [hex j])

/-- C5 (witness): the amended theorem applied to the integral domain
`[0, 1]` and the single raw draw `5`: one row is returned, its value is
an integer, and it lies inside the (integer-bounded) domain. -/
theorem C5_amended_witness :
    (quantum_sampling c5w_lower c5w_upper c5w_mask c5w_draws).length = 1 ∧
    (∃ z : ℤ,
      (quantum_sampling c5w_lower c5w_upper c5w_mask c5w_draws).getD 0 (fun _ => 0) 0 =
        (z:ℚ)) ∧
    c5w_lower 0 ≤ (quantum_sampling c5w_lower c5w_upper c5w_mask c5w_draws).getD 0
        (fun _ => 0) 0 ∧
    (quantum_sampling c5w_lower c5w_upper c5w_mask c5w_draws).getD 0 (fun _ => 0) 0 ≤
      c5w_upper 0 := by
  have h := C5_amended c5w_lower c5w_upper c5w_mask c5w_draws 1 rfl
    (fun j => by norm_num [c5w_lower, c5w_upper])
  have h2 := h.2 0 (by norm_num) 0
  have hint := h2.2.1 (by norm_num [c5w_mask])
  have hbounds := h2.2.2 0 1 (by norm_num [c5w_mask]) (by norm_num [c5w_lower])
    (by norm_num [c5w_upper])
  exact ⟨h.1, hint.1, hbounds.1, hbounds.2⟩

/-- C6: whenever `training` completes, the returned record holds the cost
of the last computed elite target, that elite target's position (the
`best_performer` of the final iteration, not the tracked `best_of_best`),
and the elapsed time value. -/
theorem C6_result_reports_last_elite {D : ℕ} (p : QEAParams D) (N ss : ℕ)
    (u : Fin D → ℚ) (draws : ℕ → ℕ → List (Fin D → ℚ)) (rf : ℕ) (elapsed : ℚ)
    (pr : ResultRecord D × TrainState D)
    (h : training_full p N ss u draws rf elapsed = Except.ok pr) :
    pr.1.cost = cost_at p.cost_function pr.2.lastElite ∧
    pr.1.min = pr.2.lastElite ∧ pr.1.time = elapsed := by
  unfold training_full at h
  split_ifs at h with hss
  dsimp only at h
  split at h
  · simp at h
  · simp only [Except.ok.injEq] at h
    rw [← h]
    exact ⟨rfl, rfl, rfl⟩

/-- C6 (witness): a completed concrete run (one iteration, constant-zero
cost) whose record fields agree with the final elite target and with the
elapsed value `7`, obtained through the theorem. -/
theorem C6_witness :
    (training_full c6_params 0 2 (fun _ => 0) c6_draws 0 7).isOk = true ∧
    (training_full c6_params 0 2 (fun _ => 0) c6_draws 0 7).map (fun pr => pr.1.min) =
      (training_full c6_params 0 2 (fun _ => 0) c6_draws 0 7).map
        (fun pr => pr.2.lastElite) ∧
    (training_full c6_params 0 2 (fun _ => 0) c6_draws 0 7).map (fun pr => pr.1.time) =
      (training_full c6_params 0 2 (fun _ => 0) c6_draws 0 7).map (fun _ => (7:ℚ)) := by
  refine ⟨?_, ?_, ?_⟩
  · norm_num [training_full, training_go, training_step, iteration_samples,
      quantum_individual_init, quantum_sampling, elitist_sample_evaluation,
      sortByKey, insertByKey, quantum_update, sigma_decider, updated_sigma_entry,
      cost_at, clamp_entry, break_condition, c6_params, c6_draws, Except.isOk,
      Except.toBool]
  · cases h : training_full c6_params 0 2 (fun _ => 0) c6_draws 0 7 with
    | error e => rfl
    | ok pr =>
      have hc := C6_result_reports_last_elite c6_params 0 2 (fun _ => 0) c6_draws 0 7 pr h
      simp [Except.map, hc.2.1]
  · cases h : training_full c6_params 0 2 (fun _ => 0) c6_draws 0 7 with
    | error e => rfl
    | ok pr =>
      have hc := C6_result_reports_last_elite c6_params 0 2 (fun _ => 0) c6_draws 0 7 pr h
      simp [Except.map, hc.2.2]

/-- C7: every completed training run executes the iteration body for the
indices `0, 1, ..., N_iterations` exactly (fuel `N_iterations + 1`), and
the early-`break` guard is identically false — no cost value can exit the
loop early. -/
theorem C7_runs_all_iterations {D : ℕ} (p : QEAParams D)
    (draws : ℕ → ℕ → List (Fin D → ℚ)) (N ss rf : ℕ) (s : TrainState D) (c : ℚ) :
    (training_go p draws N ss rf (N+1) 0 s).map Prod.snd =
      (training_go p draws N ss rf (N+1) 0 s).map (fun _ => List.range (N+1)) ∧
    break_condition c = false := by
  constructor
  · rw [List.range_eq_range']
    exact training_go_indices p draws N ss rf (N+1) 0 s
  · exact break_condition_false c

/-- C8 (counterexample): a completed run with configured
`elitist_level = 2` ends with the optimizer's `elitist_level` field equal
to `1` — the final-iteration forcing is never undone, contradicting the
claim that the field holds its configured value after training. -/
theorem C8_counterexample :
    (training_full c8_params 0 3 (fun _ => 0) c8_draws 0 0).map
        (fun pr => pr.2.elitist_level) = Except.ok 1 ∧
    c8_params.elitist_level = 2 ∧ (1:ℕ) ≠ 2 := by
  norm_num [training_full, training_go, training_step, iteration_samples,
    quantum_individual_init, quantum_sampling, elitist_sample_evaluation,
    sortByKey, insertByKey, quantum_update, sigma_decider, updated_sigma_entry,
    cost_at, clamp_entry, break_condition, c8_params, c8_draws, Except.map]

/-- C8 (amended): the iteration body forces `elitist_level` to `1`
exactly when the iteration index reaches `N_iterations` (so only on the
final scheduled iteration, earlier ones use the stored field), the elite
target of the body is computed with that level — but the forcing is
permanent: after every completed run the field holds `1`, not the
configured value. -/
theorem C8_amended {D : ℕ} (p : QEAParams D) (N i ss rf : ℕ)
    (samples : List (Fin D → ℚ)) (s : TrainState D) (u : Fin D → ℚ)
    (draws : ℕ → ℕ → List (Fin D → ℚ)) (t : ℚ) :
    (training_step p N i samples s).elitist_level =
      (if N ≤ i then 1 else s.elitist_level) ∧
    (training_step p N i samples s).lastElite =
      elitist_sample_evaluation p.cost_function (if N ≤ i then 1 else s.elitist_level)
        samples ∧
    (training_full p N ss u draws rf t).map (fun pr => pr.2.elitist_level) =
      (training_full p N ss u draws rf t).map (fun _ => 1) := by
  refine ⟨training_step_elitist_eq p N i samples s, ?_, ?_⟩
  · unfold training_step
    dsimp only
    split_ifs with h1 h2
    · rfl
    · omega
    · omega
    · rfl
  · unfold training_full
    split_ifs with hss
    · rfl
    · dsimp only
      split
      · rfl
      · rename_i r hgo
        have hfin := training_go_final_elitist p draws N ss rf N 0 _ r hgo
        rw [if_pos (by omega)] at hfin
        simp only [Except.map]
        rw [hfin]

/-- C9: training fails with the configuration error message exactly when
`sample_size <= elitist_level`, before any sampling or cost evaluation
(the error branch is taken for every cost function and every random draw
oracle); when `sample_size > elitist_level` that error is never
produced. -/
theorem C9_precondition_check {D : ℕ} (p : QEAParams D) (N ss : ℕ) (u : Fin D → ℚ)
    (draws : ℕ → ℕ → List (Fin D → ℚ)) (rf : ℕ) (t : ℚ) :
    (ss ≤ p.elitist_level →
      training_full p N ss u draws rf t = Except.error sample_size_error) ∧
    (p.elitist_level < ss →
      training_full p N ss u draws rf t ≠ Except.error sample_size_error) := by
  constructor
  · intro h
    unfold training_full
    rw [if_pos h]
  · intro h hcontra
    unfold training_full at hcontra
    rw [if_neg (by omega)] at hcontra
    dsimp only at hcontra
    split at hcontra
    · have h2 : feasibility_fuel_error = sample_size_error := by
        injection hcontra
      exact absurd h2 (by decide)
    · exact Except.noConfusion hcontra

/-- C9 (witness): the precondition theorem applied to a violating
configuration (`sample_size = 1 = elitist_level`) and to a satisfying one
(`sample_size = 1 > elitist_level = 0`). -/
theorem C9_witness :
    training_full c9_bad 0 1 (fun _ => 0) (fun _ _ => []) 0 0 =
      Except.error sample_size_error ∧
    training_full c9_ok 0 1 (fun _ => 0) (fun _ _ => []) 0 0 ≠
      Except.error sample_size_error :=
  ⟨(C9_precondition_check c9_bad 0 1 (fun _ => 0) (fun _ _ => []) 0 0).1
      (by norm_num [c9_bad]),
   (C9_precondition_check c9_ok 0 1 (fun _ => 0) (fun _ _ => []) 0 0).2
      (by norm_num [c9_ok])⟩

/-- C10 (counterexample): with the valid domain `lower = -3 ≤ upper = 0`
(`lower ≠ 0`) and uniform draw `1/2`, the initial mean is `-3`, which
does not lie in the claimed interval `[lower, lower + upper) = [-3, -3)`
— the claim's "always lies in `[lower, lower + upper)`" fails for
non-positive `upper`. -/
theorem C10_counterexample :
    ((-3:ℚ) ≤ 0) ∧ ((0:ℚ) ≤ 1/2) ∧ ((1/2:ℚ) < 1) ∧
    (quantum_individual_init (fun _ : Fin 1 => (-3:ℚ)) (fun _ => 0)
      (fun _ => 1/2)).1 0 = -3 ∧
    (-3:ℚ) ∉ Set.Ico (-3:ℚ) (-3 + 0) := by
  norm_num [quantum_individual_init, Set.mem_Ico]

/-- C10 (amended): the initial mean is `lower + upper * u` per dimension;
when `upper[j] > 0` and `u[j] ∈ [0,1)` it lies in
`[lower[j], lower[j] + upper[j])`; and for every domain with
`lower[j] > 0` (hence `upper[j] ≥ lower[j] > 0`) some admissible draw
places the initial mean outside `[lower[j], upper[j]]`. -/
theorem C10_amended {D : ℕ} (lower upper u : Fin D → ℚ) (j : Fin D) :
    (quantum_individual_init lower upper u).1 j = lower j + upper j * u j ∧
    (0 ≤ u j → u j < 1 → 0 < upper j →
      (quantum_individual_init lower upper u).1 j ∈
        Set.Ico (lower j) (lower j + upper j)) ∧
    (0 < lower j → lower j ≤ upper j →
      ∃ v : ℚ, 0 ≤ v ∧ v < 1 ∧
        (quantum_individual_init lower upper (fun _ => v)).1 j ∉
          Set.Icc (lower j) (upper j)) := by
  refine ⟨rfl, ?_, ?_⟩
  · intro h0 h1 hup
    rw [Set.mem_Ico]
    constructor
    · have hnn : 0 ≤ upper j * u j := mul_nonneg (le_of_lt hup) h0
      simp only [quantum_individual_init]
      linarith
    · have hlt : upper j * u j < upper j := by
        calc upper j * u j < upper j * 1 := mul_lt_mul_of_pos_left h1 hup
        _ = upper j := mul_one _
      simp only [quantum_individual_init]
      linarith
  · intro hL hLU
    have hU : 0 < upper j := lt_of_lt_of_le hL hLU
    have hne : upper j ≠ 0 := ne_of_gt hU
    refine ⟨1 - lower j / (2 * upper j), ?_, ?_, ?_⟩
    · have hle : lower j / (2 * upper j) ≤ 1 := by
        rw [div_le_one (by positivity)]
        linarith
      linarith
    · have hpos : 0 < lower j / (2 * upper j) := div_pos hL (by positivity)
      linarith
    · simp only [quantum_individual_init, Set.mem_Icc, not_and, not_le]
      intro _
      have hval : lower j + upper j * (1 - lower j / (2 * upper j)) =
          upper j + lower j / 2 := by
        field_simp
        ring
      rw [hval]
      linarith

/-- C10 (witness): the amended theorem applied to the 1-D domain
`lower = 1`, `upper = 2` with draw `0`: the mean formula, the membership
in `[1, 1+2)`, and a draw pushing the mean outside `[1, 2]`. -/
theorem C10_amended_witness :
    (quantum_individual_init (fun _ : Fin 1 => (1:ℚ)) (fun _ => 2) (fun _ => 0)).1 0 =
      1 + 2 * 0 ∧
    (quantum_individual_init (fun _ : Fin 1 => (1:ℚ)) (fun _ => 2) (fun _ => 0)).1 0 ∈
      Set.Ico (1:ℚ) (1 + 2) ∧
    (∃ v : ℚ, 0 ≤ v ∧ v < 1 ∧
      (quantum_individual_init (fun _ : Fin 1 => (1:ℚ)) (fun _ => 2) (fun _ => v)).1 0 ∉
        Set.Icc (1:ℚ) 2) := by
  have h := C10_amended (fun _ : Fin 1 => (1:ℚ)) (fun _ => 2) (fun _ => 0) 0
  exact ⟨h.1, h.2.1 (by norm_num) (by norm_num) (by norm_num),
    h.2.2 (by norm_num) (by norm_num)⟩
